import Mathlib

/-
  Verification of the ADC link-calibration engine of the caltech-lwa
  repository (files ads5296_r2_tests/software/caltech_adc.py and
  ads5296_snap2_tests/adc_test.py), as a shallow embedding in Lean 4.

  Machine integers in the Python source are arbitrary-precision, so they
  are modelled as Nat / Int directly.  Numpy arrays are modelled as lists;
  per-lane matrices are lists of columns.
-/

/-! ## Delay margin selector (CaltechAdc.decideDelay)

The source performs a forward scan assigning to each tap index the length
of the run of consecutive zero-error entries ending at that index, then a
backward scan taking the pointwise minimum with the run length starting at
that index, and finally returns the first index attaining the maximum
(numpy argmax) -- or False when every entry is nonzero. -/

/-- Forward scan of decideDelay: the source iterates
for i in range(data.size): if data i is nonzero the running distance
resets to 0, otherwise it increments; the result records the running
distance at every index. -/
def fwdPass : ℕ → List ℕ → List ℕ
  | _, [] => []
  | cur, d :: rest =>
    (if d = 0 then cur + 1 else 0) :: fwdPass (if d = 0 then cur + 1 else 0) rest

/-- Pointwise minimum of the forward scan and the (mirrored) backward scan,
exactly the dist array decideDelay holds after its second loop. -/
def distBoth (data : List ℕ) : List ℕ :=
  List.zipWith min (fwdPass 0 data) ((fwdPass 0 data.reverse).reverse)

/-- Maximum of a list of naturals (numpy max over a nonnegative array). -/
def listMax : List ℕ → ℕ
  | [] => 0
  | x :: rest => max x (listMax rest)

/-- First index attaining the maximum, the semantics of numpy argmax:
index 0 wins whenever the head is at least as large as everything after
it, otherwise the answer lies in the tail. -/
def argmaxFirst : List ℕ → ℕ
  | [] => 0
  | x :: rest => if listMax rest ≤ x then 0 else argmaxFirst rest + 1

/-- CaltechAdc.decideDelay on a 1-dimensional per-tap error vector:
returns none (the source returns False) when every entry is nonzero,
otherwise the first index maximizing the min of the two run lengths. -/
def decideDelay (data : List ℕ) : Option ℕ :=
  if data.all (fun d => decide (d ≠ 0)) then none
  else some (argmaxFirst (distBoth data))

/-! Specification-side margin, written from the words of the claim:
the backward run length of consecutive zero entries ending at the index
and the forward run length starting at it, each stopping at the first
nonzero entry or at the vector boundary; the margin is their minimum. -/

/-- Length of the maximal all-zero suffix of a list. -/
def revRun (l : List ℕ) : ℕ := (l.reverse.takeWhile (fun d => d == 0)).length

/-- Backward run length of zero entries ending at index i (inclusive). -/
def zerosBack (data : List ℕ) (i : ℕ) : ℕ := revRun (data.take (i + 1))

/-- Forward run length of zero entries starting at index i (inclusive). -/
def zerosFwd (data : List ℕ) (i : ℕ) : ℕ :=
  ((data.drop i).takeWhile (fun d => d == 0)).length

/-- The margin of tap index i as worded in the specification. -/
def margin (data : List ℕ) (i : ℕ) : ℕ :=
  min (zerosBack data i) (zerosFwd data i)

example : decideDelay [0, 0, 0, 0, 0] = some 2 := by decide
example : decideDelay [1, 0, 0, 0, 1] = some 2 := by decide
example : decideDelay [0, 0, 1, 0, 0] = some 0 := by decide
example : decideDelay [1, 1, 1, 1, 1] = none := by decide
example : margin [1, 0, 0, 0, 1] 2 = 2 := by decide

/-! ## Lemmas relating the scans of decideDelay to the specified margins -/

theorem fwdPass_length (cur : ℕ) (l : List ℕ) : (fwdPass cur l).length = l.length := by
  induction l generalizing cur with
  | nil => rfl
  | cons d rest ih => simp [fwdPass, ih]

theorem takeWhile_all_eq {α : Type} (p : α → Bool) (l : List α) (h : l.all p = true) :
    l.takeWhile p = l := by
  induction l with
  | nil => rfl
  | cons a l ih =>
    simp only [List.all_cons, Bool.and_eq_true] at h
    simp [List.takeWhile_cons, h.1, ih h.2]

theorem takeWhile_append_single {α : Type} (p : α → Bool) (l : List α) (d : α) :
    (l ++ [d]).takeWhile p =
      if l.all p then l ++ [d].takeWhile p else l.takeWhile p := by
  induction l with
  | nil => simp
  | cons a l ih =>
    by_cases hp : p a
    · by_cases hall : l.all p
      · simp [List.takeWhile_cons, hp, hall, ih]
      · simp [List.takeWhile_cons, hp, hall, ih]
    · simp [List.takeWhile_cons, hp]

theorem revRun_all_zero (l : List ℕ) (h : l.all (fun x => x == 0) = true) :
    revRun l = l.length := by
  unfold revRun
  rw [takeWhile_all_eq _ _ (by simpa using h), List.length_reverse]

theorem revRun_cons (d : ℕ) (l : List ℕ) :
    revRun (d :: l) =
      if l.all (fun x => x == 0) then l.length + (if d = 0 then 1 else 0)
      else revRun l := by
  unfold revRun
  rw [List.reverse_cons, takeWhile_append_single, List.all_reverse]
  by_cases hall : l.all (fun x => x == 0)
  · simp only [hall, if_true, List.length_append, List.length_reverse]
    congr 1
    by_cases hd : d = 0 <;> simp [List.takeWhile_cons, hd]
  · simp [hall]

theorem fwdPass_getD (l : List ℕ) :
    ∀ (cur i : ℕ), i < l.length →
      (fwdPass cur l).getD i 0 =
        if (l.take (i + 1)).all (fun d => d == 0) then cur + i + 1
        else revRun (l.take (i + 1)) := by
  induction l with
  | nil => intro cur i h; simp at h
  | cons d rest ih =>
    intro cur i h
    match i with
    | 0 =>
      simp only [fwdPass, List.getD_cons_zero, List.take_succ_cons, List.take_zero]
      by_cases hd : d = 0
      · simp [hd]
      · simp [hd, revRun]
    | Nat.succ i =>
      have hi : i < rest.length := by simpa using h
      have htl : (rest.take (i + 1)).length = i + 1 := by
        rw [List.length_take]; omega
      simp only [fwdPass, List.getD_cons_succ]
      rw [ih _ i hi, List.take_succ_cons, revRun_cons]
      by_cases hd : d = 0
      · by_cases hall : (rest.take (i + 1)).all (fun x => x == 0)
        · simp only [hd, if_true, List.all_cons, hall, beq_self_eq_true, Bool.and_self]
          omega
        · simp [hd, hall]
      · by_cases hall : (rest.take (i + 1)).all (fun x => x == 0)
        · simp [hd, hall, htl]
        · simp [hd, hall]

theorem distFwd_getD (data : List ℕ) (i : ℕ) (h : i < data.length) :
    (fwdPass 0 data).getD i 0 = zerosBack data i := by
  rw [fwdPass_getD data 0 i h]
  unfold zerosBack
  by_cases hall : (data.take (i + 1)).all (fun x => x == 0)
  · rw [if_pos hall, revRun_all_zero _ hall, List.length_take]
    omega
  · rw [if_neg hall]

theorem getD_reverse (l : List ℕ) (i : ℕ) (h : i < l.length) :
    l.reverse.getD i 0 = l.getD (l.length - 1 - i) 0 := by
  have h2 : i < l.reverse.length := by simpa using h
  have h3 : l.length - 1 - i < l.length := by omega
  rw [List.getD_eq_getElem _ _ h2, List.getD_eq_getElem _ _ h3]
  exact List.getElem_reverse h2

theorem distBwd_getD (data : List ℕ) (i : ℕ) (h : i < data.length) :
    ((fwdPass 0 data.reverse).reverse).getD i 0 = zerosFwd data i := by
  have hlen : (fwdPass 0 data.reverse).length = data.length := by
    rw [fwdPass_length, List.length_reverse]
  have hrev : i < (fwdPass 0 data.reverse).length := by omega
  have hidx : data.length - 1 - i < data.reverse.length := by
    rw [List.length_reverse]; omega
  rw [getD_reverse _ _ hrev, hlen, distFwd_getD _ _ hidx]
  unfold zerosBack zerosFwd
  have hs : data.length - 1 - i + 1 = data.length - i := by omega
  rw [hs]
  have hdrop : data.reverse.take (data.length - i) = (data.drop i).reverse := by
    rw [List.take_reverse]
    have hx : data.length - (data.length - i) = i := by omega
    rw [hx]
  rw [hdrop]
  unfold revRun
  rw [List.reverse_reverse]

theorem distBoth_length (data : List ℕ) : (distBoth data).length = data.length := by
  unfold distBoth
  rw [List.length_zipWith, fwdPass_length, List.length_reverse, fwdPass_length,
    List.length_reverse]
  omega

theorem distBoth_getD (data : List ℕ) (i : ℕ) (h : i < data.length) :
    (distBoth data).getD i 0 = margin data i := by
  unfold distBoth margin
  have ha : i < (fwdPass 0 data).length := by rw [fwdPass_length]; exact h
  have hb : i < ((fwdPass 0 data.reverse).reverse).length := by
    rw [List.length_reverse, fwdPass_length, List.length_reverse]; exact h
  have hz : i < (List.zipWith min (fwdPass 0 data)
      ((fwdPass 0 data.reverse).reverse)).length := by
    rw [List.length_zipWith]; omega
  rw [List.getD_eq_getElem _ _ hz, List.getElem_zipWith,
    ← List.getD_eq_getElem _ 0 ha, ← List.getD_eq_getElem _ 0 hb,
    distFwd_getD _ _ h, distBwd_getD _ _ h]

/-! ## Properties of the first-maximum index (numpy argmax semantics) -/

theorem getD_le_listMax (l : List ℕ) : ∀ j, l.getD j 0 ≤ listMax l := by
  induction l with
  | nil => intro j; simp [listMax]
  | cons x rest ih =>
    intro j
    match j with
    | 0 => simp [listMax]
    | Nat.succ j =>
      simp only [List.getD_cons_succ, listMax]
      exact le_trans (ih j) (le_max_right _ _)

theorem argmaxFirst_lt_length (l : List ℕ) (h : l ≠ []) : argmaxFirst l < l.length := by
  induction l with
  | nil => exact absurd rfl h
  | cons x rest ih =>
    by_cases hm : listMax rest ≤ x
    · simp [argmaxFirst, hm]
    · have hrest : rest ≠ [] := by
        intro he
        rw [he] at hm
        exact hm (Nat.zero_le x)
      simp only [argmaxFirst, hm, if_false, List.length_cons]
      exact Nat.succ_lt_succ (ih hrest)

theorem argmaxFirst_getD (l : List ℕ) (h : l ≠ []) :
    l.getD (argmaxFirst l) 0 = listMax l := by
  induction l with
  | nil => exact absurd rfl h
  | cons x rest ih =>
    by_cases hm : listMax rest ≤ x
    · simp [argmaxFirst, hm, listMax, Nat.max_eq_left hm]
    · have hrest : rest ≠ [] := by
        intro he
        rw [he] at hm
        exact hm (Nat.zero_le x)
      simp only [argmaxFirst, hm, if_false, List.getD_cons_succ, listMax]
      rw [ih hrest, Nat.max_eq_right (Nat.le_of_lt (Nat.lt_of_not_le hm))]

theorem argmaxFirst_first (l : List ℕ) :
    ∀ j, j < argmaxFirst l → l.getD j 0 < l.getD (argmaxFirst l) 0 := by
  induction l with
  | nil => intro j hj; simp [argmaxFirst] at hj
  | cons x rest ih =>
    intro j hj
    by_cases hm : listMax rest ≤ x
    · simp [argmaxFirst, hm] at hj
    · have hrest : rest ≠ [] := by
        intro he
        rw [he] at hm
        exact hm (Nat.zero_le x)
      simp only [argmaxFirst, hm, if_false] at hj
      simp only [argmaxFirst, hm, if_false]
      match j with
      | 0 =>
        simp only [List.getD_cons_zero, List.getD_cons_succ]
        rw [argmaxFirst_getD rest hrest]
        exact Nat.lt_of_not_le hm
      | Nat.succ j =>
        simp only [List.getD_cons_succ]
        exact ih j (Nat.lt_of_succ_lt_succ hj)

/-! ## Characterization of decideDelay against the specified margin -/

theorem decideDelay_none_iff (data : List ℕ) :
    decideDelay data = none ↔ ∀ d ∈ data, d ≠ 0 := by
  unfold decideDelay
  by_cases h : data.all (fun d => decide (d ≠ 0))
  · simp only [h, if_true, true_iff]
    intro d hd
    simpa using List.all_eq_true.mp h d hd
  · simp only [h, if_false]
    constructor
    · intro hc; exact absurd hc (by simp)
    · intro hall
      exact absurd (List.all_eq_true.mpr (fun d hd => by simpa using hall d hd)) h

theorem decideDelay_some_spec (data : List ℕ) (i : ℕ)
    (h : decideDelay data = some i) :
    i < data.length ∧ (∀ j, j < data.length → margin data j ≤ margin data i) ∧
      ∀ j, j < i → margin data j < margin data i := by
  unfold decideDelay at h
  by_cases hall : data.all (fun d => decide (d ≠ 0))
  · rw [if_pos hall] at h; exact absurd h (by simp)
  · rw [if_neg hall] at h
    have hi : i = argmaxFirst (distBoth data) := by
      exact (Option.some.inj h).symm
    have hne : data ≠ [] := by
      intro he
      rw [he] at hall
      exact hall rfl
    have hdb : distBoth data ≠ [] := by
      intro he
      have := distBoth_length data
      rw [he] at this
      exact hne (List.length_eq_zero.mp this.symm)
    have hlen := distBoth_length data
    have hil : i < data.length := by
      rw [hi, ← hlen]
      exact argmaxFirst_lt_length _ hdb
    refine ⟨hil, ?_, ?_⟩
    · intro j hj
      rw [← distBoth_getD data j hj, ← distBoth_getD data i hil, hi]
      rw [argmaxFirst_getD _ hdb]
      exact getD_le_listMax _ j
    · intro j hji
      have hjl : j < data.length := lt_trans hji hil
      rw [← distBoth_getD data j hjl, ← distBoth_getD data i hil, hi]
      exact argmaxFirst_first _ j (by rw [← hi]; exact hji)

/-- Claim C1: decideDelay returns the no-solution result exactly when every
entry of the per-tap error vector is nonzero; otherwise it returns the
index whose margin (minimum of the backward and forward zero run lengths,
each stopping at the first nonzero entry or the vector boundary) is
maximal, ties broken by the lowest index; and the four concrete examples
of the specification evaluate as stated. -/
theorem decideDelay_margin_correct :
    (∀ data : List ℕ, (decideDelay data = none ↔ ∀ d ∈ data, d ≠ 0)) ∧
    (∀ data : List ℕ, ∀ i : ℕ, decideDelay data = some i →
      i < data.length ∧ (∀ j, j < data.length → margin data j ≤ margin data i) ∧
        ∀ j, j < i → margin data j < margin data i) ∧
    decideDelay [0, 0, 0, 0, 0] = some 2 ∧
    decideDelay [1, 0, 0, 0, 1] = some 2 ∧
    decideDelay [0, 0, 1, 0, 0] = some 0 ∧
    decideDelay [1, 1, 1, 1, 1] = none := by
  refine ⟨decideDelay_none_iff, decideDelay_some_spec, ?_, ?_, ?_, ?_⟩ <;> decide

/-- Witness for C1: the characterization applied at the concrete sweep
vector 1,0,0,0,1 whose selected tap is 2. -/
theorem decideDelay_margin_correct_witness :
    2 < ([1, 0, 0, 0, 1] : List ℕ).length ∧
      margin [1, 0, 0, 0, 1] 1 ≤ margin [1, 0, 0, 0, 1] 2 ∧
      margin [1, 0, 0, 0, 1] 0 < margin [1, 0, 0, 0, 1] 2 :=
  ⟨(decideDelay_margin_correct.2.1 [1, 0, 0, 0, 1] 2 (by decide)).1,
   (decideDelay_margin_correct.2.1 [1, 0, 0, 0, 1] 2 (by decide)).2.1 1 (by decide),
   (decideDelay_margin_correct.2.1 [1, 0, 0, 0, 1] 2 (by decide)).2.2 0 (by decide)⟩

/-! ## Claim C10: the alignLineClock consumer of decideDelay

The source tests the decision with if not t: in Python both False (the
no-solution result) and the integer 0 are falsy, so a selected tap of
index 0 is routed to the failure branch and no delay is applied. -/

/-- Python truthiness of the value returned by decideDelay: False and the
integer 0 are both falsy. -/
def pyFalsy : Option ℕ → Bool
  | none => true
  | some n => n == 0

/-- The per-lane decision step of alignLineClock: run decideDelay, and
apply the returned tap only when the result is truthy; the failure branch
(none here) only logs an error and applies nothing. -/
def alignLineClockLane (vals : List ℕ) : Option ℕ :=
  let t := decideDelay vals
  if pyFalsy t then none else t

/-- Claim C10: whenever the margin-maximizing tap is index 0, the line
clock alignment routine reports a delay-decision failure and applies no
delay to the lane, even though tap 0 is itself error-free. -/
theorem alignLineClockLane_zero_conflated :
    ∀ vals : List ℕ, decideDelay vals = some 0 →
      alignLineClockLane vals = none ∧ 0 < vals.length ∧ vals.getD 0 1 = 0 := by
  intro vals h
  obtain ⟨hlen, hmax, -⟩ := decideDelay_some_spec vals 0 h
  refine ⟨?_, hlen, ?_⟩
  · unfold alignLineClockLane
    rw [h]
    rfl
  · -- some 0 means the all-nonzero test failed, so some entry is zero
    have hnotall : ¬(∀ d ∈ vals, d ≠ 0) := by
      intro hall
      have := (decideDelay_none_iff vals).mpr hall
      rw [h] at this
      exact absurd this (by simp)
    push_neg at hnotall
    obtain ⟨d, hd, hd0⟩ := hnotall
    obtain ⟨k, hk, hkd⟩ := List.mem_iff_getElem.mp hd
    -- margin at k is at least 1 because entry k is zero
    have hfk : 1 ≤ zerosFwd vals k := by
      unfold zerosFwd
      rw [List.drop_eq_getElem_cons hk, hkd, hd0]
      simp [List.takeWhile_cons]
    have hbk : 1 ≤ zerosBack vals k := by
      unfold zerosBack revRun
      have htk : vals.take (k + 1) = vals.take k ++ [d] := by
        rw [List.take_succ, List.getElem?_eq_getElem hk, hkd]
        rfl
      rw [htk, List.reverse_append, List.reverse_singleton, hd0]
      rw [List.singleton_append, List.takeWhile_cons]
      simp only [beq_self_eq_true, if_true, List.length_cons]
      omega
    have hmk : 1 ≤ margin vals k := le_min hbk hfk
    have hk0 : 1 ≤ margin vals 0 := le_trans hmk (hmax k (by omega))
    -- margin at 0 positive forces the first entry to be zero
    by_contra hne
    have hzb : zerosBack vals 0 = 0 := by
      unfold zerosBack revRun
      have ht1 : vals.take 1 = [vals.getD 0 1] := by
        rw [List.getD_eq_getElem vals 1 hlen, List.take_succ, List.take_zero,
          List.getElem?_eq_getElem hlen]
        rfl
      rw [ht1, List.reverse_singleton, List.takeWhile_cons]
      rw [if_neg (by simpa using hne)]
      rfl
    have hm0 : margin vals 0 = 0 := by
      unfold margin
      omega
    omega

/-- Witness for C10: on the sweep vector 0,1,0,1,0 the selector picks tap
index 0, and the routine treats it as a failure. -/
theorem alignLineClockLane_zero_conflated_witness :
    alignLineClockLane [0, 1, 0, 1, 0] = none ∧
      0 < ([0, 1, 0, 1, 0] : List ℕ).length ∧
      ([0, 1, 0, 1, 0] : List ℕ).getD 0 1 = 0 :=
  alignLineClockLane_zero_conflated [0, 1, 0, 1, 0] (by decide)

/-! ## Claim C3: iteration bound of alignFrameClock

The per-chip loop of CaltechAdc.alignFrameClock runs
for u in range(resolution*2): score all lanes with the dual pattern in
err mode; bitslip every lane with a nonzero count; break when the whole
iteration saw only zero counts.  The hardware state mutated by bitslip is
abstracted as a state type, scoring as a function of the state, and one
bitslip as a state transformer. -/

/-- The fixed lane list of the controller (laneList in the source). -/
def laneList : List ℕ := [0, 1, 2, 3, 4, 5, 6, 7]

/-- The allDone test of one loop iteration: no lane scored nonzero. -/
def allZeroErrs (errs : ℕ → ℕ) : Bool :=
  laneList.all (fun lane => errs lane == 0)

/-- One iteration body: bitslip every lane whose error count is nonzero,
in lane order. -/
def slipLanes {σ : Type} (slip : σ → ℕ → σ) (errs : ℕ → ℕ) (s : σ) : σ :=
  laneList.foldl (fun st lane => if errs lane ≠ 0 then slip st lane else st) s

/-- Number of score-and-bitslip iterations the loop performs with the
given fuel: an iteration that sees all-zero errors is counted and ends
the loop (the break of the source); otherwise the loop continues on the
bitslipped state. -/
def alignChipIters {σ : Type} (score : σ → ℕ → ℕ) (slip : σ → ℕ → σ) :
    ℕ → σ → ℕ
  | 0, _ => 0
  | n + 1, s =>
    if allZeroErrs (score s) then 1
    else 1 + alignChipIters score slip n (slipLanes slip (score s) s)

/-- The per-chip alignment loop of alignFrameClock, whose fuel is
range(resolution*2) in the source. -/
def alignFrameClockChip {σ : Type} (score : σ → ℕ → ℕ) (slip : σ → ℕ → σ)
    (resolution : ℕ) (s : σ) : ℕ :=
  alignChipIters score slip (resolution * 2) s

theorem alignChipIters_le {σ : Type} (score : σ → ℕ → ℕ) (slip : σ → ℕ → σ) :
    ∀ (n : ℕ) (s : σ), alignChipIters score slip n s ≤ n := by
  intro n
  induction n with
  | zero => intro s; simp [alignChipIters]
  | succ n ih =>
    intro s
    by_cases h : allZeroErrs (score s)
    · simp [alignChipIters, h]
    · have hstep : alignChipIters score slip (n + 1) s =
          1 + alignChipIters score slip n (slipLanes slip (score s) s) := by
        simp [alignChipIters, h]
      rw [hstep]
      have := ih (slipLanes slip (score s) s)
      omega

theorem alignChipIters_stuck {σ : Type} (score : σ → ℕ → ℕ)
    (slip : σ → ℕ → σ) (hnz : ∀ t : σ, allZeroErrs (score t) = false) :
    ∀ (n : ℕ) (s : σ), alignChipIters score slip n s = n := by
  intro n
  induction n with
  | zero => intro s; rfl
  | succ n ih =>
    intro s
    have hstep : alignChipIters score slip (n + 1) s =
        1 + alignChipIters score slip n (slipLanes slip (score s) s) := by
      simp [alignChipIters, hnz s]
    rw [hstep, ih (slipLanes slip (score s) s)]
    omega

/-- Claim C3: the frame-clock alignment loop performs at most
2 times resolution score-and-bitslip iterations; it stops (after the
iteration that observed them) as soon as all lanes score zero; and with a
scorer that always reports a nonzero count somewhere and resolution 8 it
performs exactly 16 iterations before giving up. -/
theorem alignFrameClock_iteration_bounds :
    ∀ (σ : Type) (score : σ → ℕ → ℕ) (slip : σ → ℕ → σ)
      (resolution : ℕ) (s : σ),
      alignFrameClockChip score slip resolution s ≤ 2 * resolution ∧
      (∀ (n : ℕ) (t : σ), allZeroErrs (score t) = true →
        alignChipIters score slip (n + 1) t = 1) ∧
      ((∀ t : σ, ∃ lane ∈ laneList, score t lane ≠ 0) →
        alignFrameClockChip score slip 8 s = 16) := by
  intro σ score slip resolution s
  refine ⟨?_, ?_, ?_⟩
  · have := alignChipIters_le score slip (resolution * 2) s
    unfold alignFrameClockChip
    omega
  · intro n t ht
    simp [alignChipIters, ht]
  · intro hnz
    have hall : ∀ t : σ, allZeroErrs (score t) = false := by
      intro t
      obtain ⟨lane, hmem, hne⟩ := hnz t
      unfold allZeroErrs
      rw [List.all_eq_false]
      exact ⟨lane, hmem, by simpa using hne⟩
    exact alignChipIters_stuck score slip hall 16 s

/-- Witness for C3: a scorer stuck at one error on every lane exhausts
exactly 16 iterations at resolution 8, and an all-zero scorer stops after
the single iteration that observed it. -/
theorem alignFrameClock_iteration_bounds_witness :
    alignFrameClockChip (fun (_ : Unit) (_ : ℕ) => 1) (fun s _ => s) 8 () = 16 ∧
      alignChipIters (fun (_ : Unit) (_ : ℕ) => 0) (fun s _ => s) 16 () = 1 :=
  ⟨(alignFrameClock_iteration_bounds Unit (fun _ _ => 1) (fun s _ => s) 8 ()).2.2
      (fun t => ⟨0, by decide, by decide⟩),
   (alignFrameClock_iteration_bounds Unit (fun _ _ => 0) (fun s _ => s) 8 ()).2.1
      15 () (by decide)⟩

/-! ## Claim C4: the bitfield codec (CaltechAdc._get and CaltechAdc._set)

Python evaluates mask & -mask on arbitrary-precision integers, yielding
the lowest set bit of the mask; lowBit computes the same value.  Python
d1 & ~mask clears the masked bits, which on naturals is d1 XOR (d1 AND
mask).  Division in the source is Python 2 integer division. -/

/-- Lowest set bit of a natural number, the value of mask & -mask in the
source; 0 maps to 0. -/
def lowBit : ℕ → ℕ
  | 0 => 0
  | n + 1 => if (n + 1) % 2 = 1 then 1 else 2 * lowBit ((n + 1) / 2)
decreasing_by exact Nat.div_lt_self (Nat.succ_pos n) (by omega)

/-- CaltechAdc._get: mask the word and right-justify by dividing by the
lowest set bit of the mask. -/
def _get (data mask : ℕ) : ℕ := (data &&& mask) / lowBit mask

/-- CaltechAdc._set: clear the masked bits of d1, shift d2 into the field
position, and OR it back in; with a zero (falsy) mask the source skips
the masking step. -/
def _set (d1 d2 mask : ℕ) : ℕ :=
  if mask ≠ 0 then (d1 ^^^ (d1 &&& mask)) ||| d2 * lowBit mask else d1 ||| d2

theorem lowBit_odd (n : ℕ) (h : n % 2 = 1) : lowBit n = 1 := by
  match n with
  | 0 => simp at h
  | m + 1 => simp [lowBit, h]

theorem lowBit_even (n : ℕ) (h0 : n ≠ 0) (h : n % 2 = 0) :
    lowBit n = 2 * lowBit (n / 2) := by
  match n with
  | 0 => exact absurd rfl h0
  | m + 1 => simp [lowBit, h]

theorem lowBit_mul_pow (x o : ℕ) (hx : x % 2 = 1) :
    lowBit (x * 2 ^ o) = 2 ^ o := by
  induction o with
  | zero => simpa using lowBit_odd x hx
  | succ o ih =>
    have hxne : x ≠ 0 := by omega
    have hne : x * 2 ^ (o + 1) ≠ 0 := by positivity
    have heq : x * 2 ^ (o + 1) = 2 * (x * 2 ^ o) := by ring
    have he : (x * 2 ^ (o + 1)) % 2 = 0 := by
      rw [heq]
      exact Nat.mul_mod_right 2 _
    rw [lowBit_even _ hne he, heq, Nat.mul_div_cancel_left _ (by omega), ih]
    ring

theorem mask_testBit (wd o i : ℕ) :
    ((2 ^ wd - 1) * 2 ^ o).testBit i =
      (decide (o ≤ i) && decide (i < o + wd)) := by
  rw [← Nat.shiftLeft_eq, Nat.testBit_shiftLeft, Nat.testBit_two_pow_sub_one]
  rcases le_or_lt o i with h | h
  · have h1 : decide (o ≤ i) = true := by simpa using h
    rw [h1, Bool.true_and, Bool.true_and]
    exact decide_eq_decide.mpr (by omega)
  · have h1 : decide (o ≤ i) = false := by simp; omega
    rw [h1, Bool.false_and, Bool.false_and]

/-- Claim C4: for every base word w, every contiguous single-run mask
given by width wd of at least one bit and offset o, and every value v
that fits in the field, reading back a written field returns v, and every
bit outside the mask is unchanged. -/
theorem bitfield_roundtrip (w v wd o : ℕ) (hwd : 1 ≤ wd) (hv : v < 2 ^ wd) :
    _get (_set w v ((2 ^ wd - 1) * 2 ^ o)) ((2 ^ wd - 1) * 2 ^ o) = v ∧
      ∀ i : ℕ, ((2 ^ wd - 1) * 2 ^ o).testBit i = false →
        (_set w v ((2 ^ wd - 1) * 2 ^ o)).testBit i = w.testBit i := by
  have hge : 2 ≤ 2 ^ wd := by
    calc 2 = 2 ^ 1 := (pow_one 2).symm
    _ ≤ 2 ^ wd := Nat.pow_le_pow_right (by omega) hwd
  have hodd : (2 ^ wd - 1) % 2 = 1 := by
    have h2 : 2 ^ wd % 2 = 0 := by
      have hdvd : (2 : ℕ) ∣ 2 ^ wd := dvd_pow_self 2 (by omega)
      omega
    omega
  have hlow : lowBit ((2 ^ wd - 1) * 2 ^ o) = 2 ^ o := lowBit_mul_pow _ o hodd
  have hmne : (2 ^ wd - 1) * 2 ^ o ≠ 0 :=
    Nat.mul_ne_zero (by omega) (by positivity)
  have hvbit : ∀ i, (v * 2 ^ o).testBit i = true →
      ((2 ^ wd - 1) * 2 ^ o).testBit i = true := by
    intro i hbit
    rw [← Nat.shiftLeft_eq, Nat.testBit_shiftLeft] at hbit
    rw [Bool.and_eq_true] at hbit
    obtain ⟨hoi, hv2⟩ := hbit
    have hoi2 : o ≤ i := by simpa using hoi
    have hlt : i - o < wd := by
      by_contra hge2
      push_neg at hge2
      have hsmall : v < 2 ^ (i - o) :=
        lt_of_lt_of_le hv (Nat.pow_le_pow_right (by omega) hge2)
      rw [Nat.testBit_lt_two_pow hsmall] at hv2
      exact absurd hv2 (by simp)
    rw [mask_testBit]
    simp only [Bool.and_eq_true, decide_eq_true_eq]
    exact ⟨hoi2, by omega⟩
  have hset : _set w v ((2 ^ wd - 1) * 2 ^ o) =
      (w ^^^ (w &&& (2 ^ wd - 1) * 2 ^ o)) ||| v * 2 ^ o := by
    unfold _set
    rw [if_pos hmne, hlow]
  constructor
  · unfold _get
    rw [hset, hlow]
    have hand : ((w ^^^ (w &&& (2 ^ wd - 1) * 2 ^ o)) ||| v * 2 ^ o) &&&
        (2 ^ wd - 1) * 2 ^ o = v * 2 ^ o := by
      apply Nat.eq_of_testBit_eq
      intro i
      simp only [Nat.testBit_and, Nat.testBit_or, Nat.testBit_xor]
      by_cases hvb : (v * 2 ^ o).testBit i = true
      · rw [hvb, hvbit i hvb]
        cases w.testBit i <;> rfl
      · have hvb2 : (v * 2 ^ o).testBit i = false := by
          cases hq : (v * 2 ^ o).testBit i
          · rfl
          · exact absurd hq hvb
        rw [hvb2]
        cases hw : w.testBit i <;>
          cases hq : ((2 ^ wd - 1) * 2 ^ o).testBit i <;> rfl
    rw [hand]
    exact Nat.mul_div_cancel v (by positivity)
  · intro i hmb
    rw [hset]
    simp only [Nat.testBit_or, Nat.testBit_xor, Nat.testBit_and]
    have hvb : (v * 2 ^ o).testBit i = false := by
      cases hq : (v * 2 ^ o).testBit i
      · rfl
      · exact absurd (hvbit i hq) (by simp [hmb])
    rw [hmb, hvb]
    cases w.testBit i <;> rfl

/-- Witness for C4: writing value 5 into the 3-bit field at offset 2 of
the word 53 and reading it back returns 5, and bit 0 (outside the mask)
is preserved. -/
theorem bitfield_roundtrip_witness :
    _get (_set 53 5 ((2 ^ 3 - 1) * 2 ^ 2)) ((2 ^ 3 - 1) * 2 ^ 2) = 5 ∧
      (_set 53 5 ((2 ^ 3 - 1) * 2 ^ 2)).testBit 0 = (53 : ℕ).testBit 0 :=
  ⟨(bitfield_roundtrip 53 5 3 2 (by decide) (by decide)).1,
   (bitfield_roundtrip 53 5 3 2 (by decide) (by decide)).2 0 (by decide)⟩

/-! ## Claim C2: the ramp-mode scorer (get_errs in adc_test.py)

The source walks one lane of the snapshot and counts every transition
where ds i differs from (ds (i-1) + 1) mod 1024, 1024 being the full
range of the 10-bit samples. -/

/-- One transition check of the ramp loop: 0 when the sample after index
i equals the sample at i plus one modulo 1024, else 1. -/
def rampErrStep (l : List ℕ) (i : ℕ) : ℕ :=
  if l.getD (i + 1) 0 = (l.getD i 0 + 1) % 1024 then 0 else 1

/-- The per-lane ramp error count of get_errs: the number of
failing transitions over the whole column. -/
def rampErrs (l : List ℕ) : ℕ :=
  (Finset.range (l.length - 1)).sum (fun i => rampErrStep l i)

/-- A ramp column of length n starting at s, wrapping modulo 1024. -/
def rampFrom (s n : ℕ) : List ℕ :=
  (List.range n).map (fun i => (s + i) % 1024)

theorem rampFrom_length (s n : ℕ) : (rampFrom s n).length = n := by
  simp [rampFrom]

theorem rampFrom_getD (s n i : ℕ) (h : i < n) :
    (rampFrom s n).getD i 0 = (s + i) % 1024 := by
  have hl : i < (rampFrom s n).length := by rw [rampFrom_length]; exact h
  rw [List.getD_eq_getElem _ _ hl]
  simp [rampFrom]

theorem getD_set (l : List ℕ) (k v j : ℕ) (hj : j < l.length) :
    (l.set k v).getD j 0 = if k = j then v else l.getD j 0 := by
  have hj2 : j < (l.set k v).length := by simpa using hj
  rw [List.getD_eq_getElem _ _ hj2, List.getD_eq_getElem _ _ hj, List.getElem_set]

theorem set_ramp_getD (s n k v j : ℕ) (hj : j < n) :
    ((rampFrom s n).set k v).getD j 0 = if k = j then v else (s + j) % 1024 := by
  have hjl : j < (rampFrom s n).length := by rw [rampFrom_length]; exact hj
  rw [getD_set _ _ _ _ hjl, rampFrom_getD s n j hj]

theorem rampErrs_ramp (s n : ℕ) : rampErrs (rampFrom s n) = 0 := by
  unfold rampErrs
  apply Finset.sum_eq_zero
  intro i hi
  rw [Finset.mem_range, rampFrom_length] at hi
  unfold rampErrStep
  rw [rampFrom_getD s n i (by omega), rampFrom_getD s n (i + 1) (by omega)]
  have hc : (s + (i + 1)) % 1024 = ((s + i) % 1024 + 1) % 1024 := by omega
  rw [if_pos hc]

theorem sum_ind_eq (m a : ℕ) :
    (Finset.range m).sum (fun i => if a = i then (1 : ℕ) else 0) =
      if a < m then 1 else 0 := by
  induction m with
  | zero => simp
  | succ m ih =>
    rw [Finset.sum_range_succ, ih]
    split_ifs <;> omega

theorem sum_ind_succ_eq (m a : ℕ) :
    (Finset.range m).sum (fun i => if a = i + 1 then (1 : ℕ) else 0) =
      if 0 < a ∧ a < m + 1 then 1 else 0 := by
  induction m with
  | zero =>
    rw [Finset.sum_range_zero]
    split_ifs <;> omega
  | succ m ih =>
    rw [Finset.sum_range_succ, ih]
    split_ifs <;> omega

theorem rampErrs_set_single (s n k v : ℕ) (hk : k < n) (hv : v < 1024)
    (hne : v ≠ (s + k) % 1024) :
    rampErrs ((rampFrom s n).set k v) =
      (if 0 < k then 1 else 0) + (if k + 1 < n then 1 else 0) := by
  unfold rampErrs
  have hlen : ((rampFrom s n).set k v).length = n := by
    rw [List.length_set, rampFrom_length]
  rw [hlen]
  have hstep : ∀ i ∈ Finset.range (n - 1),
      rampErrStep ((rampFrom s n).set k v) i =
        (if k = i + 1 then 1 else 0) + (if k = i then 1 else 0) := by
    intro i hi
    rw [Finset.mem_range] at hi
    unfold rampErrStep
    rw [set_ramp_getD s n k v i (by omega), set_ramp_getD s n k v (i + 1) (by omega)]
    split_ifs <;> omega
  rw [Finset.sum_congr rfl hstep, Finset.sum_add_distrib, sum_ind_eq, sum_ind_succ_eq]
  split_ifs <;> omega

/-- Counterexample to C2 as stated: replacing the single interior sample
at index 2 of the perfect ramp 0,1,2,3,4 by the out-of-sequence value 9
makes the ramp scorer of get_errs report 2 errors for the lane, not
exactly 1: both transitions adjacent to the replaced sample fail. -/
theorem rampErrs_single_error_counterexample :
    (rampFrom 0 5).set 2 9 = [0, 1, 9, 3, 4] ∧
      rampErrs ((rampFrom 0 5).set 2 9) = 2 ∧
      rampErrs ((rampFrom 0 5).set 2 9) ≠ 1 := by
  refine ⟨by decide, by decide, by decide⟩

/-- Claim C2 (amended): a column that is a ramp incrementing by 1 and
wrapping modulo the full 10-bit range scores 0 ramp errors; replacing
exactly one sample by an out-of-sequence value yields exactly 2 errors
when the sample is interior, and exactly 1 when it is the first or last
sample of the column. -/
theorem rampErrs_spec :
    (∀ s n : ℕ, rampErrs (rampFrom s n) = 0) ∧
      ∀ s n k v : ℕ, k < n → v < 1024 → v ≠ (s + k) % 1024 →
        rampErrs ((rampFrom s n).set k v) =
          (if 0 < k then 1 else 0) + (if k + 1 < n then 1 else 0) :=
  ⟨rampErrs_ramp, fun s n k v hk hv hne => rampErrs_set_single s n k v hk hv hne⟩

/-- Witness for C2: the amended count evaluated at the interior
replacement of the counterexample input and at a boundary replacement. -/
theorem rampErrs_spec_witness :
    rampErrs ((rampFrom 0 5).set 2 9) =
        (if 0 < 2 then 1 else 0) + (if 2 + 1 < 5 then 1 else 0) ∧
      rampErrs ((rampFrom 7 5).set 0 3) =
        (if 0 < 0 then 1 else 0) + (if 0 + 1 < 5 then 1 else 0) :=
  ⟨rampErrs_spec.2 0 5 2 9 (by decide) (by decide) (by decide),
   rampErrs_spec.2 7 5 0 3 (by decide) (by decide) (by decide)⟩

/-! ## Claim C5: signed reinterpretation of captured samples

CaltechAdc.readRAM executes vals with vals greater than 2 to the power
(width-1) decremented by 2 to the power width; get_snapshot in
adc_test.py subtracts 1024 from values greater than 511.  The former
comparison is strict at the half-range point, the latter is equivalent
to testing the top bit. -/

/-- The signed reinterpretation of one raw sample in CaltechAdc.readRAM:
subtract the modulus only when the value strictly exceeds half range. -/
def readRAM_signed (width : ℕ) (v : ℕ) : ℤ :=
  if (v : ℤ) > 2 ^ (width - 1) then (v : ℤ) - 2 ^ width else (v : ℤ)

/-- The signed reinterpretation of one raw sample in get_snapshot of
adc_test.py: subtract 1024 when the value exceeds 511. -/
def get_snapshot_signed (v : ℕ) : ℤ :=
  if (v : ℤ) > 511 then (v : ℤ) - 1024 else (v : ℤ)

/-- Claim C5 is the intended behavior but readRAM misses it at exactly
the half-range sample: for the 10-bit value 512 the top bit is set, so
the claim requires -512, yet readRAM returns 512 unchanged because its
comparison is strict; the sibling get_snapshot implements the claim
exactly over the whole 10-bit range. -/
theorem readRAM_signed_off_by_one :
    readRAM_signed 10 512 = 512 ∧ (512 : ℤ) - 2 ^ 10 = -512 ∧
      readRAM_signed 10 512 ≠ -512 ∧
      ∀ v : ℕ, v < 1024 →
        get_snapshot_signed v =
          if 512 ≤ v then (v : ℤ) - 1024 else (v : ℤ) := by
  refine ⟨by decide, by decide, by decide, ?_⟩
  intro v hv
  unfold get_snapshot_signed
  split_ifs <;> omega

/-- Witness for C5: the correct conversion evaluated at the half-range
sample 512, which maps to -512. -/
theorem readRAM_signed_off_by_one_witness :
    get_snapshot_signed 512 =
      if 512 ≤ (512 : ℕ) then ((512 : ℕ) : ℤ) - 1024 else ((512 : ℕ) : ℤ) :=
  readRAM_signed_off_by_one.2.2.2 512 (by decide)

/-! ## Claim C6: the delay sweep range of testPatterns

The source normalizes taps=True to taps = range(16); range(32) appears
only commented out next to it (the docstring still advertises
range(32)).  Each tap is applied, a snapshot captured and scored, and
the per-chip result maps each swept tap to its 8-lane error row. -/

/-- The tap list testPatterns sweeps when taps=True. -/
def sweepTapList : List ℕ := List.range 16

/-- The per-chip sweep mapping of testPatterns for one chip: one
(tap, per-lane error row) entry per swept tap, modelling
dict(zip(taps, rows)) where row tap lane is the score of that lane at
that tap. -/
def testPatternsSweep (errFn : ℕ → ℕ → ℕ) : List (ℕ × List ℕ) :=
  sweepTapList.map (fun tap => (tap, laneList.map (errFn tap)))

/-- Counterexample to C6 as stated: tap 31 (and taps 16..31 generally)
is never applied or scored, and the mapping has 16 entries, not 32. -/
theorem testPatternsSweep_counterexample :
    ¬(31 ∈ (testPatternsSweep (fun _ _ => 0)).map Prod.fst) ∧
      (testPatternsSweep (fun _ _ => 0)).length ≠ 32 := by
  refine ⟨by decide, by decide⟩

/-- Claim C6 (amended): with taps=True, testPatterns applies and scores
every delay tap in the inclusive range 0..15, and the returned per-chip
mapping contains exactly one 8-lane error entry for each of those 16 tap
values. -/
theorem testPatternsSweep_taps :
    ∀ errFn : ℕ → ℕ → ℕ,
      (testPatternsSweep errFn).map Prod.fst = List.range 16 ∧
        (testPatternsSweep errFn).length = 16 ∧
        ∀ e ∈ testPatternsSweep errFn, e.2.length = 8 := by
  intro errFn
  refine ⟨?_, ?_, ?_⟩
  · rw [testPatternsSweep, List.map_map]
    exact List.map_id (List.range 16)
  · simp [testPatternsSweep, sweepTapList]
  · intro e he
    rw [testPatternsSweep, List.mem_map] at he
    obtain ⟨tap, htap, heq⟩ := he
    rw [← heq]
    rfl

/-- Witness for C6: the amended sweep shape at the constant-zero scorer
and the entry for tap 5. -/
theorem testPatternsSweep_taps_witness :
    (testPatternsSweep (fun _ _ => 0)).map Prod.fst = List.range 16 ∧
      ((5, laneList.map (fun _ => (0 : ℕ))) : ℕ × List ℕ).2.length = 8 :=
  ⟨(testPatternsSweep_taps (fun _ _ => 0)).1,
   (testPatternsSweep_taps (fun _ _ => 0)).2.2
     (5, laneList.map (fun _ => 0)) (by decide)⟩

/-! ## Claim C7: isFrameClockAligned returns inside its loop

In the source the return statement is indented inside the per-chip
loop, so only the first chip of adcList is ever scored. -/

/-- The chip list of the controller (adcList in the source). -/
def adcList : List ℕ := [0, 1, 2, 3]

/-- The loop of isFrameClockAligned: ok starts True; the loop body
scores the chip, folds the result into ok, and then returns ok from
within the loop; with an empty chip list the function would fall
through and return Python None. -/
def isFCALoop (errFn : ℕ → List ℕ) : Bool → List ℕ → Option Bool
  | _, [] => none
  | ok, adc :: _ => some (ok && (errFn adc).all (fun v => v == 0))

/-- CaltechAdc.isFrameClockAligned with the per-chip dual-pattern error
counts abstracted as errFn chip. -/
def isFrameClockAligned (errFn : ℕ → List ℕ) : Option Bool :=
  isFCALoop errFn true adcList

/-- Claim C7: isFrameClockAligned returns from within the first
iteration of its per-chip loop: the result is exactly whether all lanes
of the first chip score zero, independent of every other chip. -/
theorem isFrameClockAligned_first_chip_only :
    (∀ errFn : ℕ → List ℕ,
      isFrameClockAligned errFn = some ((errFn 0).all (fun v => v == 0))) ∧
      ∀ errFn errFn2 : ℕ → List ℕ, errFn2 0 = errFn 0 →
        isFrameClockAligned errFn2 = isFrameClockAligned errFn := by
  constructor
  · intro errFn
    simp [isFrameClockAligned, isFCALoop, adcList]
  · intro errFn errFn2 h
    simp [isFrameClockAligned, isFCALoop, adcList, h]

/-- Witness for C7: two scorers that agree on chip 0 but differ on the
other chips produce the same result. -/
theorem isFrameClockAligned_first_chip_only_witness :
    isFrameClockAligned (fun c => [c * c, 0]) =
      isFrameClockAligned (fun c => [c, 0]) :=
  isFrameClockAligned_first_chip_only.2
    (fun c => [c, 0]) (fun c => [c * c, 0]) (by decide)

/-! ## Claim C8: the err-mode dual-pattern scorer

In testPatterns _check, err mode with two patterns builds the two
expected matrices m1 (pattern1 on even rows) and m2 (the reverse),
counts mismatches of each column against both, and takes np.minimum
per lane. -/

/-- Per-column mismatch count against the alternating expectation that
starts with a and continues alternating with b. -/
def altMismatch (a b : ℤ) : List ℤ → ℕ
  | [] => 0
  | x :: rest => (if x = a then 0 else 1) + altMismatch b a rest

/-- The err-mode dual-pattern score of one lane: the smaller of the two
phase-order mismatch counts. -/
def errDualLane (p1 p2 : ℤ) (col : List ℤ) : ℕ :=
  min (altMismatch p1 p2 col) (altMismatch p2 p1 col)

/-- The per-lane result over a captured matrix given by its columns. -/
def errDualCheck (p1 p2 : ℤ) (cols : List (List ℤ)) : List ℕ :=
  cols.map (errDualLane p1 p2)

/-- A column alternating a,b,a,b,... of length n. -/
def altSeq (a b : ℤ) : ℕ → List ℤ
  | 0 => []
  | n + 1 => a :: altSeq b a n

theorem altMismatch_altSeq (n : ℕ) :
    ∀ a b : ℤ, altMismatch a b (altSeq a b n) = 0 := by
  induction n with
  | zero => intro a b; rfl
  | succ n ih =>
    intro a b
    simp [altSeq, altMismatch, ih b a]

/-- Claim C8: the err-mode dual-pattern scorer returns 0 for every lane
whose column alternates p1,p2,... or p2,p1,..., and in general each
lane independently scores the minimum of the mismatch counts against
the two phase-order hypotheses. -/
theorem errDual_order_tolerant :
    (∀ (p1 p2 : ℤ) (n : ℕ),
      errDualLane p1 p2 (altSeq p1 p2 n) = 0 ∧
        errDualLane p1 p2 (altSeq p2 p1 n) = 0) ∧
      ∀ (p1 p2 : ℤ) (cols : List (List ℤ)),
        errDualCheck p1 p2 cols =
          cols.map (fun col =>
            min (altMismatch p1 p2 col) (altMismatch p2 p1 col)) := by
  constructor
  · intro p1 p2 n
    constructor
    · unfold errDualLane
      rw [altMismatch_altSeq]
      simp
    · unfold errDualLane
      rw [altMismatch_altSeq]
      simp
  · intro p1 p2 cols
    rfl

/-! ## Claim C9: stimulus is switched off before every normal return

testPatterns turns the mode-specific stimulus on for each selected chip,
captures and scores, and unconditionally loops over the selected chips
issuing the off command before returning; isLaneBonded does the same
with the ramp stimulus; calibrate only ever touches stimulus through
these calls.  The hardware interaction is modelled as an event trace. -/

/-- Stimulus commands the pattern controller writes to a chip. -/
inductive StimCmd
  | enRamp
  | patSync
  | singlePat (p : ℤ)
  | dualPat (p q : ℤ)
  | off
deriving DecidableEq

/-- The modes testPatterns can be invoked in (ramp mode, the default
synchronization pattern, a single custom pattern, or dual patterns). -/
inductive TPMode
  | ramp
  | sync
  | single (p : ℤ)
  | dual (p q : ℤ)
deriving DecidableEq

/-- The stimulus-on command each mode issues. -/
def onCmdOf : TPMode → StimCmd
  | .ramp => .enRamp
  | .sync => .patSync
  | .single p => .singlePat p
  | .dual p q => .dualPat p q

/-- Hardware events relevant to stimulus state: a stimulus command
addressed to one chip, or a snapshot capture (scoring reads it). -/
inductive Ev
  | stim (chip : ℕ) (cmd : StimCmd)
  | capture
deriving DecidableEq

/-- Trace of one normally-returning testPatterns call: mode on for every
selected chip, one capture per scored setting, then off for every
selected chip. -/
def testPatternsTrace (chipSel : List ℕ) (mode : TPMode) (nCaps : ℕ) :
    List Ev :=
  chipSel.map (fun c => Ev.stim c (onCmdOf mode)) ++
    (List.replicate nCaps Ev.capture ++
      chipSel.map (fun c => Ev.stim c StimCmd.off))

/-- The chip order in which isLaneBonded addresses stimulus: the path-A
chips 0 and 2 first, then the path-B chips 1 and 3. -/
def bondChipOrder : List ℕ := [0, 2, 1, 3]

/-- Trace of one normally-returning isLaneBonded call. -/
def isLaneBondedTrace : List Ev :=
  bondChipOrder.map (fun c => Ev.stim c StimCmd.enRamp) ++
    (List.replicate 1 Ev.capture ++
      bondChipOrder.map (fun c => Ev.stim c StimCmd.off))

/-- Accumulator step for the last stimulus command seen for chip c. -/
def lastStimStep (c : ℕ) (acc : Option StimCmd) (e : Ev) : Option StimCmd :=
  match e with
  | Ev.stim c2 cmd => if c2 = c then some cmd else acc
  | Ev.capture => acc

/-- The last stimulus command a trace addressed to chip c, if any. -/
def lastStim (t : List Ev) (c : ℕ) : Option StimCmd :=
  t.foldl (lastStimStep c) none

/-- The trace leaves stimulus off on every chip whose stimulus it ever
touched. -/
def stimOffDone (t : List Ev) : Prop :=
  ∀ c : ℕ, lastStim t c ≠ none → lastStim t c = some StimCmd.off

theorem lastStim_foldl (t : List Ev) (c : ℕ) :
    ∀ a : Option StimCmd, t.foldl (lastStimStep c) a = (lastStim t c).or a := by
  induction t with
  | nil => intro a; rfl
  | cons e t ih =>
    intro a
    rw [List.foldl_cons, ih]
    conv_rhs => rw [lastStim, List.foldl_cons, ih]
    cases hl : lastStim t c with
    | some x => rfl
    | none =>
      simp only [Option.none_or]
      cases e with
      | capture => rfl
      | stim c2 cmd =>
        by_cases h : c2 = c <;> simp [lastStimStep, h]

theorem lastStim_append (t1 t2 : List Ev) (c : ℕ) :
    lastStim (t1 ++ t2) c = (lastStim t2 c).or (lastStim t1 c) := by
  unfold lastStim
  rw [List.foldl_append]
  exact lastStim_foldl t2 c _

theorem lastStim_mapStim (cs : List ℕ) (cmd : StimCmd) (c : ℕ) :
    lastStim (cs.map (fun x => Ev.stim x cmd)) c =
      if c ∈ cs then some cmd else none := by
  induction cs with
  | nil => simp [lastStim]
  | cons a cs ih =>
    rw [List.map_cons]
    rw [show (Ev.stim a cmd :: cs.map (fun x => Ev.stim x cmd)) =
      [Ev.stim a cmd] ++ cs.map (fun x => Ev.stim x cmd) from rfl]
    rw [lastStim_append, ih]
    by_cases h1 : c ∈ cs
    · simp [h1]
    · by_cases h2 : a = c
      · simp [h1, h2, lastStim, lastStimStep]
      · have h3 : ¬(c = a) := fun hc => h2 hc.symm
        simp [h1, h2, h3, lastStim, lastStimStep]

theorem lastStim_replicate_capture (n c : ℕ) :
    lastStim (List.replicate n Ev.capture) c = none := by
  induction n with
  | zero => rfl
  | succ n ih =>
    unfold lastStim at ih ⊢
    rw [List.replicate_succ, List.foldl_cons]
    exact ih

theorem lastStim_testPatternsTrace (cs : List ℕ) (mode : TPMode) (n c : ℕ) :
    lastStim (testPatternsTrace cs mode n) c =
      if c ∈ cs then some StimCmd.off else none := by
  unfold testPatternsTrace
  rw [lastStim_append, lastStim_append, lastStim_replicate_capture,
    lastStim_mapStim, lastStim_mapStim]
  by_cases h : c ∈ cs <;> simp [h]

/-- Is an event a stimulus-off command. -/
def isOffEv : Ev → Bool
  | Ev.stim _ StimCmd.off => true
  | _ => false

/-- Number of captures at or after the first stimulus-off command: zero
means every capture (hence all scoring) happens before stimulus is
removed. -/
def capsAfterFirstOff (t : List Ev) : ℕ :=
  ((t.dropWhile (fun e => !isOffEv e)).filter
    (fun e => decide (e = Ev.capture))).length

theorem onCmd_not_off (mode : TPMode) (c : ℕ) :
    isOffEv (Ev.stim c (onCmdOf mode)) = false := by
  cases mode <;> rfl

theorem dropWhile_append_all {α : Type} (p : α → Bool) (l1 l2 : List α)
    (h : ∀ a ∈ l1, p a = true) :
    (l1 ++ l2).dropWhile p = l2.dropWhile p := by
  induction l1 with
  | nil => rfl
  | cons a l1 ih =>
    rw [List.cons_append, List.dropWhile_cons, if_pos (h a (List.mem_cons_self a l1))]
    exact ih (fun x hx => h x (List.mem_cons_of_mem a hx))

theorem filter_capture_mapOff (cs : List ℕ) :
    ((cs.map (fun c => Ev.stim c StimCmd.off)).filter
      (fun e => decide (e = Ev.capture))).length = 0 := by
  induction cs with
  | nil => rfl
  | cons a cs ih =>
    rw [List.map_cons, List.filter_cons,
      if_neg (by simp)]
    exact ih

theorem capsAfterFirstOff_testPatterns (cs : List ℕ) (mode : TPMode) (n : ℕ) :
    capsAfterFirstOff (testPatternsTrace cs mode n) = 0 := by
  unfold capsAfterFirstOff testPatternsTrace
  rw [dropWhile_append_all, dropWhile_append_all]
  · cases cs with
    | nil => rfl
    | cons a cs2 =>
      rw [List.map_cons, List.dropWhile_cons]
      rw [if_neg (by simp [isOffEv])]
      exact filter_capture_mapOff (a :: cs2)
  · intro e he
    rw [List.mem_replicate] at he
    rw [he.2]
    rfl
  · intro e he
    rw [List.mem_map] at he
    obtain ⟨x, hx, heq⟩ := he
    rw [← heq]
    simp [onCmd_not_off]

theorem capsAfterFirstOff_isLaneBonded : capsAfterFirstOff isLaneBondedTrace = 0 := by
  decide

theorem stimOffDone_append (t1 t2 : List Ev) (h1 : stimOffDone t1)
    (h2 : stimOffDone t2) : stimOffDone (t1 ++ t2) := by
  intro c hc
  rw [lastStim_append] at hc ⊢
  cases hl2 : lastStim t2 c with
  | some x =>
    have hx := h2 c (by rw [hl2]; simp)
    rw [hl2] at hx
    rw [Option.or_some]
    exact hx
  | none =>
    rw [hl2, Option.none_or] at hc
    rw [Option.none_or]
    exact h1 c hc

theorem stimOffDone_nil : stimOffDone [] := by
  intro c hc
  exact absurd rfl hc

theorem stimOffDone_flatten (ts : List (List Ev))
    (h : ∀ t ∈ ts, stimOffDone t) : stimOffDone ts.flatten := by
  induction ts with
  | nil => exact stimOffDone_nil
  | cons t ts ih =>
    rw [List.flatten_cons]
    exact stimOffDone_append _ _ (h t (List.mem_cons_self t ts))
      (ih (fun x hx => h x (List.mem_cons_of_mem t hx)))

theorem stimOffDone_testPatterns (cs : List ℕ) (mode : TPMode) (n : ℕ) :
    stimOffDone (testPatternsTrace cs mode n) := by
  intro c hc
  rw [lastStim_testPatternsTrace] at hc ⊢
  by_cases h : c ∈ cs
  · rw [if_pos h]
  · rw [if_neg h] at hc
    exact absurd rfl hc

theorem lastStim_isLaneBondedTrace (c : ℕ) :
    lastStim isLaneBondedTrace c =
      if c ∈ bondChipOrder then some StimCmd.off else none := by
  unfold isLaneBondedTrace
  rw [lastStim_append, lastStim_append, lastStim_replicate_capture,
    lastStim_mapStim, lastStim_mapStim]
  by_cases h : c ∈ bondChipOrder <;> simp [h]

theorem stimOffDone_isLaneBonded : stimOffDone isLaneBondedTrace := by
  intro c hc
  rw [lastStim_isLaneBondedTrace] at hc ⊢
  by_cases h : c ∈ bondChipOrder
  · rw [if_pos h]
  · rw [if_neg h] at hc
    exact absurd rfl hc

/-! The trace of one calibrate run, built from the traces of its
subroutines.  The per-chip dual patterns, the global patterns, and the
number of bitslip iterations each chip takes are parameters: the claim
holds for every value of them and for every branch outcome. -/

/-- Trace of isLineClockAligned: one all-chip dual-pattern testPatterns
call with a single capture. -/
def isLineClockAlignedTrace (pg : ℤ × ℤ) : List Ev :=
  testPatternsTrace adcList (TPMode.dual pg.1 pg.2) 1

/-- Trace of alignLineClock in its canonical dual_pat mode: one 16-tap
sweep per chip, then the global alignment check. -/
def alignLineClockTrace (pats : ℕ → ℤ × ℤ) (pg : ℤ × ℤ) : List Ev :=
  (adcList.map (fun adc =>
    testPatternsTrace [adc] (TPMode.dual (pats adc).1 (pats adc).2) 16)).flatten ++
    isLineClockAlignedTrace pg

/-- Trace of isFrameClockAligned: it returns inside its loop, so only
chip 0 is scored. -/
def isFrameClockAlignedTrace (pg : ℤ × ℤ) : List Ev :=
  testPatternsTrace [0] (TPMode.dual pg.1 pg.2) 1

/-- Trace of alignFrameClock: per chip, one single-capture dual-pattern
testPatterns call per loop iteration, then the final check. -/
def alignFrameClockTrace (pats : ℕ → ℤ × ℤ) (pg : ℤ × ℤ)
    (iters : ℕ → ℕ) : List Ev :=
  (adcList.map (fun adc =>
    (List.replicate (iters adc) (testPatternsTrace [adc]
      (TPMode.dual (pats adc).1 (pats adc).2) 1)).flatten)).flatten ++
    isFrameClockAlignedTrace pg

/-- Trace of rampTest: one all-chip ramp-mode testPatterns call. -/
def rampTestTrace : List Ev :=
  testPatternsTrace adcList TPMode.ramp 1

/-- Trace of calibrate: the stimulus-touching subroutine calls in order,
cut short at whichever stage fails (each failing stage returns False
from calibrate immediately after its subroutine call returned). -/
def calibrateTrace (pats : ℕ → ℤ × ℤ) (pg : ℤ × ℤ) (iters : ℕ → ℕ)
    (locked lineOk frameOk rampOk : Bool) : List Ev :=
  if locked = false then [] else
    alignLineClockTrace pats pg ++
      (if lineOk = false then [] else
        alignFrameClockTrace pats pg iters ++
          (if frameOk = false then [] else
            rampTestTrace ++
              (if rampOk = false then [] else isLaneBondedTrace)))

theorem stimOffDone_alignLineClock (pats : ℕ → ℤ × ℤ) (pg : ℤ × ℤ) :
    stimOffDone (alignLineClockTrace pats pg) := by
  apply stimOffDone_append
  · apply stimOffDone_flatten
    intro t ht
    rw [List.mem_map] at ht
    obtain ⟨adc, ha, heq⟩ := ht
    rw [← heq]
    exact stimOffDone_testPatterns _ _ _
  · exact stimOffDone_testPatterns _ _ _

theorem stimOffDone_alignFrameClock (pats : ℕ → ℤ × ℤ) (pg : ℤ × ℤ)
    (iters : ℕ → ℕ) : stimOffDone (alignFrameClockTrace pats pg iters) := by
  apply stimOffDone_append
  · apply stimOffDone_flatten
    intro t ht
    rw [List.mem_map] at ht
    obtain ⟨adc, ha, heq⟩ := ht
    rw [← heq]
    apply stimOffDone_flatten
    intro t2 ht2
    rw [List.mem_replicate] at ht2
    rw [ht2.2]
    exact stimOffDone_testPatterns _ _ _
  · exact stimOffDone_testPatterns _ _ _

theorem stimOffDone_calibrate (pats : ℕ → ℤ × ℤ) (pg : ℤ × ℤ)
    (iters : ℕ → ℕ) (locked lineOk frameOk rampOk : Bool) :
    stimOffDone (calibrateTrace pats pg iters locked lineOk frameOk rampOk) := by
  unfold calibrateTrace
  split_ifs
  · exact stimOffDone_nil
  · exact stimOffDone_append _ _ (stimOffDone_alignLineClock pats pg)
      stimOffDone_nil
  · exact stimOffDone_append _ _ (stimOffDone_alignLineClock pats pg)
      (stimOffDone_append _ _ (stimOffDone_alignFrameClock pats pg iters)
        stimOffDone_nil)
  · exact stimOffDone_append _ _ (stimOffDone_alignLineClock pats pg)
      (stimOffDone_append _ _ (stimOffDone_alignFrameClock pats pg iters)
        (stimOffDone_append _ _ (stimOffDone_testPatterns _ _ _)
          stimOffDone_nil))
  · exact stimOffDone_append _ _ (stimOffDone_alignLineClock pats pg)
      (stimOffDone_append _ _ (stimOffDone_alignFrameClock pats pg iters)
        (stimOffDone_append _ _ (stimOffDone_testPatterns _ _ _)
          stimOffDone_isLaneBonded))

/-- Claim C9: every normally-returning testPatterns call issues the
stimulus-off command to every selected chip after all captures (no
capture follows an off command), in every mode and for any number of
scored settings; isLaneBonded leaves all four chips off; consequently
every success and failure path of calibrate ends with stimulus off on
every chip whose stimulus it touched. -/
theorem stimulus_off_before_return :
    (∀ (cs : List ℕ) (mode : TPMode) (n : ℕ), ∀ c ∈ cs,
      lastStim (testPatternsTrace cs mode n) c = some StimCmd.off) ∧
    (∀ (cs : List ℕ) (mode : TPMode) (n : ℕ),
      capsAfterFirstOff (testPatternsTrace cs mode n) = 0) ∧
    (∀ c ∈ adcList, lastStim isLaneBondedTrace c = some StimCmd.off) ∧
    capsAfterFirstOff isLaneBondedTrace = 0 ∧
    ∀ (pats : ℕ → ℤ × ℤ) (pg : ℤ × ℤ) (iters : ℕ → ℕ)
      (locked lineOk frameOk rampOk : Bool),
      stimOffDone (calibrateTrace pats pg iters locked lineOk frameOk rampOk) := by
  refine ⟨?_, capsAfterFirstOff_testPatterns, ?_, capsAfterFirstOff_isLaneBonded,
    stimOffDone_calibrate⟩
  · intro cs mode n c hc
    rw [lastStim_testPatternsTrace, if_pos hc]
  · intro c hc
    fin_cases hc <;> decide

/-- Witness for C9: chip 3 of a two-chip ramp-mode call ends with the
off command, and chip 2 ends off after isLaneBonded. -/
theorem stimulus_off_before_return_witness :
    lastStim (testPatternsTrace [1, 3] TPMode.ramp 1) 3 = some StimCmd.off ∧
      lastStim isLaneBondedTrace 2 = some StimCmd.off :=
  ⟨stimulus_off_before_return.1 [1, 3] TPMode.ramp 1 3 (by decide),
   stimulus_off_before_return.2.2.1 2 (by decide)⟩
